import Mathlib

/-!
Verification of the neurokin signal-processing core.

Shallow embedding of the functions in
`neurokin/utils/neural/processing.py`, `utils/importing.py` and the marker
validation in `neurokin/kinematic_data.py`.  Numeric samples are modelled as
rationals; numpy float not-a-number values are modelled as `Option ℚ` with
`none` for nan where a function inspects nan-ness.  Fallible numpy operations
are modelled with `Except String`.
-/

namespace Neurokin

/-- `np.cumsum` of a list: inclusive partial sums. -/
def np_cumsum (l : List ℚ) : List ℚ :=
  (l.scanl (· + ·) 0).tail

/-- `running_mean(x, n)` from processing.py:
`cumsum = np.cumsum(np.insert(x, 0, 0)); return (cumsum[n:] - cumsum[:-n]) / float(n)`.
Faithful for `n ≥ 1` (numpy raises a broadcast error for `n = 0`). -/
def running_mean (x : List ℚ) (n : ℕ) : List ℚ :=
  let cumsum := np_cumsum (0 :: x)
  ((cumsum.drop n).zipWith (· - ·) (cumsum.take (cumsum.length - n))).map (· / (n : ℚ))

/-- `simply_mean_data_binarize(sync_ch)` from processing.py:
`mean = np.mean(sync_ch); x_bin = [0 if i < mean else 1 for i in sync_ch]`. -/
def simply_mean_data_binarize (sync_ch : List ℚ) : List ℚ :=
  let mean := sync_ch.sum / (sync_ch.length : ℚ)
  sync_ch.map (fun i => if i < mean then 0 else 1)

/-- Minimum of a numeric list, `0` on the empty list (only used non-empty). -/
def listMin : List ℚ → ℚ
  | [] => 0
  | a :: t => t.foldl min a

/-- `np.argmin`: least index attaining the minimum (numpy documents that the
first occurrence is returned on ties). -/
def npArgmin (l : List ℚ) : ℕ :=
  l.findIdx (fun v => decide (v = listMin l))

/-- `find_closest_index(data, datapoint)` from processing.py.  `none` models a
numpy nan; the two `ValueError`s (explicit nan check, numpy argmin on an empty
array) are modelled as `Except.error`. -/
def find_closest_index (data : List (Option ℚ)) (datapoint : ℚ) : Except String ℕ :=
  if data.any (fun x => x.isNone) then
    .error "The input array contains nan which will always return as the nearest to datapoint"
  else if data.isEmpty then
    .error "attempt to get argmin of an empty sequence"
  else
    .ok (npArgmin (data.map (fun x => |x.getD 0 - datapoint|)))

/-- Loop of `find_closest_smaller_index`: `i` is the index of the head of the
remaining list, `best` models `min_difference` (`none` is `np.inf`), `idx` the
current best index. -/
def fcsi_go : List ℚ → ℚ → ℕ → Option ℚ → ℕ → ℕ
  | [], _, _, _, idx => idx
  | v :: vs, datapoint, i, best, idx =>
    let d := |v - datapoint|
    let outer : Bool := match best with
      | none => true
      | some b => decide (d < b)
    if outer then
      if v < datapoint then fcsi_go vs datapoint (i + 1) (some d) i
      else fcsi_go vs datapoint (i + 1) best idx
    else fcsi_go vs datapoint (i + 1) best idx

/-- `find_closest_smaller_index(data, datapoint)` from processing.py:
`min_difference = np.inf; idx = 0;` then a scan updating both whenever the
element is closer and strictly below the datapoint. -/
def find_closest_smaller_index (data : List ℚ) (datapoint : ℚ) : ℕ :=
  fcsi_go data datapoint 0 none 0

/-- The boolean mask `sync_ch > 0`. -/
def aboveZeroMask (sync_ch : List ℚ) : List Bool :=
  sync_ch.map (fun v => decide (0 < v))

/-- `np.diff(mask, prepend=False)` on booleans: consecutive elements differ
(numpy documents xor semantics for boolean diff). -/
def npDiffPrependFalse (m : List Bool) : List Bool :=
  (m.zip (false :: m)).map (fun ab => ab.1 != ab.2)

/-- `np.where(d)[0]`: indices of the `true` entries, in increasing order. -/
def whereTrue (d : List Bool) : List ℕ :=
  (List.range d.length).filter (fun i => d.getD i false)

/-- Python `l[::2]`. -/
def everySecond {α : Type} : List α → List α
  | [] => []
  | [a] => [a]
  | a :: _ :: t => a :: everySecond t

/-- `idxs_edges` of `get_stim_timestamps`: the positions where the above-zero
mask changes. -/
def signChanges (sync_ch : List ℚ) : List ℕ :=
  whereTrue (npDiffPrependFalse (aboveZeroMask sync_ch))

/-- `get_stim_timestamps(sync_ch, expected_pulses)` from processing.py.
`expected_pulses = None` is `none`; the Python truthiness test
`if expected_pulses:` also skips trimming for `expected_pulses = 0`. -/
def get_stim_timestamps (sync_ch : List ℚ) (expected_pulses : Option ℕ) : List ℕ :=
  let stim_starts := everySecond (signChanges sync_ch)
  match expected_pulses with
  | some n => if n ≠ 0 then stim_starts.take n else stim_starts
  | none => stim_starts

/-- Python slice-index normalization: negative indices count from the end,
then the index is clamped to `[0, n]`. -/
def pyIdx (n : ℕ) (i : ℤ) : ℕ :=
  let j := if i < 0 then i + n else i
  (max 0 (min j (n : ℤ))).toNat

/-- Python `l[a:b]` for integer bounds. -/
def pySlice (l : List ℚ) (a b : ℤ) : List ℚ :=
  (l.take (pyIdx l.length b)).drop (pyIdx l.length a)

/-- `np.split(raw, idxs)`: slices between the division points
`[0] + idxs + [len(raw)]`. -/
def npSplit (raw : List ℚ) (idxs : List ℤ) : List (List ℚ) :=
  let pts : List ℤ := 0 :: (idxs ++ [(raw.length : ℤ)])
  (pts.zip pts.tail).map (fun ab => pySlice raw ab.1 ab.2)

/-- Minimum of a list of naturals, `0` on the empty list (Python `min([])`
raises; only used non-empty). -/
def listMinNat : List ℕ → ℕ
  | [] => 0
  | a :: t => t.foldl min a

/-- `trim_equal_len(raw)` from processing.py: truncate every chunk to the
shortest chunk's length. -/
def trim_equal_len (raw : List (List ℚ)) : List (List ℚ) :=
  let lens := raw.map List.length
  raw.map (fun r => r.take (listMinNat lens))

/-- `parse_raw(raw, stimulation_idxs, samples_before_stim, skip_one, min_len_chunk)`
from processing.py.  Errors model the `IndexError` on an empty onset array and
the `ValueError` of `np.vstack` on an empty chunk list. -/
def parse_raw (raw : List ℚ) (stimulation_idxs : List ℤ) (samples_before_stim : ℤ)
    (skip_one : Bool) (min_len_chunk : ℕ) : Except String (List (List ℚ)) :=
  match stimulation_idxs.map (· - samples_before_stim) with
  | [] => .error "index 0 is out of bounds for axis 0 with size 0"
  | i0 :: rest =>
    let shifted := (if i0 < 0 then 0 else i0) :: rest
    let idxs := if skip_one then everySecond shifted else shifted
    let split_raw := (npSplit raw idxs).tail
    let filtered := split_raw.filter (fun chunk => decide (min_len_chunk ≤ chunk.length))
    if filtered.isEmpty then .error "need at least one array to concatenate"
    else .ok (trim_equal_len filtered)

/-- `np.mean(rows, axis=0)` on a stacked matrix: column-wise mean, one entry
per column of the first row. -/
def colMean (rows : List (List ℚ)) : List ℚ :=
  match rows with
  | [] => []
  | r0 :: _ =>
    (List.range r0.length).map
      (fun j => (rows.map (fun r => r.getD j 0)).sum / (rows.length : ℚ))

/-- `average_block(array, start, stop)` from processing.py:
`np.mean(array[start:stop], axis=0)`. -/
def average_block (array : List (List ℚ)) (start stop : ℕ) : List ℚ :=
  colMean ((array.take stop).drop start)

/-- `get_average_amplitudes(parsed_raw, tested_amplitudes, pulses_number)` from
processing.py.  `pulses_number = None` is `none`; the Python truthiness test
`if not pulses_number:` also triggers the inference for `pulses_number = 0`. -/
def get_average_amplitudes (parsed_raw : List (List ℚ)) (tested_amplitudes : List ℚ)
    (pulses_number : Option ℕ) : List (List ℚ) :=
  if tested_amplitudes.length = 1 then
    [average_block parsed_raw 0 parsed_raw.length]
  else
    let p := match pulses_number with
      | none => parsed_raw.length / tested_amplitudes.length
      | some k => if k = 0 then parsed_raw.length / tested_amplitudes.length else k
    (List.range tested_amplitudes.length).map
      (fun i => average_block parsed_raw (i * p) ((i + 1) * p))

/-- `np.round` to the nearest integer, rounding halves to even. -/
def roundHalfEven (x : ℚ) : ℤ :=
  let f := ⌊x⌋
  let r := x - f
  if r < 1 / 2 then f
  else if 1 / 2 < r then f + 1
  else if f % 2 = 0 then f else f + 1

/-- `time_to_sample(timestamp, fs, is_t1, is_t2)` from importing.py before the
final `np.uint64` cast: `sample = timestamp * fs`; for t2 floor with an
off-by-one correction when `np.round(sample * 1e9) / 1e9` equals the floor;
ceil for t1; otherwise `np.round`. -/
def time_to_sample_pre (timestamp fs : ℚ) (is_t1 is_t2 : Bool) : ℤ :=
  let sample := timestamp * fs
  if is_t2 then
    let rounded9 := ((roundHalfEven (sample * 1000000000) : ℤ) : ℚ) / 1000000000
    if rounded9 = (⌊sample⌋ : ℚ) then ⌊sample⌋ - 1 else ⌊sample⌋
  else if is_t1 then ⌈sample⌉
  else roundHalfEven sample

/-- The trailing `np.uint64(sample)` conversion, modelled as two's-complement
wraparound (the x86-64 behaviour for in-range and negative values). -/
def toUint64 (i : ℤ) : ℤ :=
  i % 18446744073709551616

/-- `time_to_sample` including the final `np.uint64` cast. -/
def time_to_sample (timestamp fs : ℚ) (is_t1 is_t2 : Bool) : ℤ :=
  toUint64 (time_to_sample_pre timestamp fs is_t1 is_t2)

/-- Python extended slice `l[0:len(l):k]`: every `k`-th element.  Faithful for
`k ≥ 1` (Python raises on step 0). -/
def everyNth (l : List ℕ) (k : ℕ) : List ℕ :=
  (l.enum.filter (fun p => decide (p.1 % k = 0))).map (fun p => p.2)

/-- `get_timestamps_stim_blocks(neudata, n_amp_tested, pulses, time_stim)` from
processing.py, with `neudata` split into its `sync_data` and `fs` fields (the
sync channel is one-dimensional by type, so the multichannel `ValueError`
branch cannot fire). -/
def get_timestamps_stim_blocks (sync_data : List ℚ) (fs : ℚ) (n_amp_tested pulses : ℕ)
    (time_stim : ℚ) : List (ℤ × ℤ) :=
  let total_pulses := n_amp_tested * pulses
  let sync := get_stim_timestamps sync_data (some total_pulses)
  let onset := everyNth sync pulses
  let stim_len := time_to_sample time_stim fs false true
  onset.map (fun o => ((o : ℤ), (o : ℤ) + stim_len))

/-- `pandas` `.unique()` on an index: first-occurrence deduplication
(accumulator holds the kept names in reverse). -/
def pdUniqueAux : List String → List String → List String
  | [], acc => acc.reverse
  | a :: t, acc => if a ∈ acc then pdUniqueAux t acc else pdUniqueAux t (a :: acc)

/-- `markers_df.columns.get_level_values("bodyparts").unique()`. -/
def pdUnique (l : List String) : List String :=
  pdUniqueAux l []

/-- The `ValueError` message of `compute_gait_cycles_bounds` for a missing left
marker, built exactly as in kinematic_data.py. -/
def leftMarkerError (left_marker : String) (markers : List String) : String :=
  "The left reference marker " ++ left_marker ++ " is not among the markers." ++
    "\n Please select one among the following: \n" ++ String.intercalate ", " markers

/-- The `ValueError` message of `compute_gait_cycles_bounds` for a missing right
marker, built exactly as in kinematic_data.py. -/
def rightMarkerError (right_marker : String) (markers : List String) : String :=
  "The right reference marker " ++ right_marker ++ " is not among the markers." ++
    "\n Please select one among the following: \n" ++ String.intercalate ", " markers

/-- `compute_gait_cycles_bounds(left_marker, right_marker)` validation from
kinematic_data.py; `bodyparts` is the bodyparts level of the marker table's
columns.  On success the two traces are handed to
`event_detection.get_toe_lift_landing` for both sides, represented abstractly
by returning the pair of marker names. -/
def compute_gait_cycles_bounds (bodyparts : List String)
    (left_marker right_marker : String) : Except String (String × String) :=
  if left_marker ∉ pdUnique bodyparts then
    .error (leftMarkerError left_marker (pdUnique bodyparts))
  else if right_marker ∉ pdUnique bodyparts then
    .error (rightMarkerError right_marker (pdUnique bodyparts))
  else
    .ok (left_marker, right_marker)

/- ------------------------------------------------------------------ -/
/- Theorems -/
/- ------------------------------------------------------------------ -/

theorem np_cumsum_zero_cons (x : List ℚ) :
    np_cumsum ((0 : ℚ) :: x) = x.scanl (· + ·) 0 := by
  simp [np_cumsum, List.scanl]

theorem length_np_cumsum (l : List ℚ) : (np_cumsum l).length = l.length := by
  simp [np_cumsum, List.length_scanl]

theorem scanl_drop_length (x : List ℚ) (b : ℚ) :
    (x.scanl (· + ·) b).drop x.length = [b + x.sum] := by
  induction x generalizing b with
  | nil => simp
  | cons a t ih =>
    simp only [List.scanl, List.length_cons, List.drop_succ_cons, ih, List.sum_cons]
    ring_nf

theorem scanl_take_one (x : List ℚ) (b : ℚ) :
    (x.scanl (· + ·) b).take 1 = [b] := by
  cases x <;> simp [List.scanl]

/-- C2: for `1 ≤ n ≤ len(x)`, `running_mean(x, n)` has length `len(x) - n + 1`,
and for `n = len(x)` it is the single arithmetic mean of the whole signal. -/
theorem running_mean_length_and_full_window (x : List ℚ) (n : ℕ)
    (h1 : 1 ≤ n) (h2 : n ≤ x.length) :
    (running_mean x n).length = x.length - n + 1 ∧
    (n = x.length → running_mean x n = [x.sum / (x.length : ℚ)]) := by
  constructor
  · simp only [running_mean, List.length_map, List.length_zipWith, List.length_drop,
      List.length_take, length_np_cumsum, List.length_cons]
    omega
  · intro hn
    subst hn
    simp only [running_mean, np_cumsum_zero_cons, length_np_cumsum, List.length_cons,
      List.length_scanl]
    rw [show x.length + 1 - x.length = 1 by omega]
    rw [scanl_drop_length, scanl_take_one]
    simp [List.zipWith]

/-- C2 witness: concrete instance at `x = [1, 2, 3]`, `n = 3`. -/
theorem running_mean_length_and_full_window_witness :
    (running_mean [(1 : ℚ), 2, 3] 3).length = [(1 : ℚ), 2, 3].length - 3 + 1 ∧
    (3 = [(1 : ℚ), 2, 3].length →
      running_mean [(1 : ℚ), 2, 3] 3 = [[(1 : ℚ), 2, 3].sum / (([(1 : ℚ), 2, 3].length : ℕ) : ℚ)]) :=
  running_mean_length_and_full_window [(1 : ℚ), 2, 3] 3 (by norm_num) (by norm_num)

/-- C9: for a non-empty signal, `simply_mean_data_binarize` preserves length, an
output element is `0` exactly when the corresponding sample is strictly below the
arithmetic mean, and a constant signal binarizes to all ones. -/
theorem simply_mean_data_binarize_spec (sync : List ℚ) (h : sync ≠ []) :
    (simply_mean_data_binarize sync).length = sync.length ∧
    (∀ i, i < sync.length →
      ((simply_mean_data_binarize sync).getD i 1 = 0 ↔
        sync.getD i 0 < sync.sum / (sync.length : ℚ))) ∧
    ((∀ v ∈ sync, ∀ w ∈ sync, v = w) →
      simply_mean_data_binarize sync = List.replicate sync.length 1) := by
  refine ⟨by simp [simply_mean_data_binarize], ?_, ?_⟩
  · intro i hi
    have hlen : (simply_mean_data_binarize sync).length = sync.length := by
      simp [simply_mean_data_binarize]
    rw [List.getD_eq_getElem _ _ (by omega), List.getD_eq_getElem _ _ hi]
    simp only [simply_mean_data_binarize, List.getElem_map]
    split
    · simpa
    · constructor
      · intro h10
        exact absurd h10 (by norm_num)
      · intro hlt
        simp_all
  · intro hc
    rcases List.exists_mem_of_ne_nil sync h with ⟨a, ha⟩
    have hrep : sync = List.replicate sync.length a :=
      List.eq_replicate_of_mem (fun b hb => hc b hb a ha)
    have hn : sync.length ≠ 0 := by
      intro h0
      exact h (List.eq_nil_of_length_eq_zero h0)
    rw [hrep]
    simp only [simply_mean_data_binarize, List.sum_replicate, List.length_replicate,
      nsmul_eq_mul, List.map_replicate]
    have hm : (sync.length : ℚ) * a / (sync.length : ℚ) = a := by
      rw [mul_comm]
      field_simp
    rw [hm]
    simp

/-- C9 witness: concrete instance at the constant signal `[5, 5, 5]`. -/
theorem simply_mean_data_binarize_spec_witness :
    (simply_mean_data_binarize [(5 : ℚ), 5, 5]).length = [(5 : ℚ), 5, 5].length ∧
    (∀ i, i < [(5 : ℚ), 5, 5].length →
      ((simply_mean_data_binarize [(5 : ℚ), 5, 5]).getD i 1 = 0 ↔
        [(5 : ℚ), 5, 5].getD i 0 < [(5 : ℚ), 5, 5].sum / (([(5 : ℚ), 5, 5].length : ℕ) : ℚ))) ∧
    ((∀ v ∈ [(5 : ℚ), 5, 5], ∀ w ∈ [(5 : ℚ), 5, 5], v = w) →
      simply_mean_data_binarize [(5 : ℚ), 5, 5] = List.replicate [(5 : ℚ), 5, 5].length 1) :=
  simply_mean_data_binarize_spec [(5 : ℚ), 5, 5] (by simp)

theorem foldl_min_le_init (t : List ℚ) (a : ℚ) : t.foldl min a ≤ a := by
  induction t generalizing a with
  | nil => simp
  | cons b t ih => exact le_trans (ih (min a b)) (min_le_left a b)

theorem foldl_min_le_mem (t : List ℚ) (a x : ℚ) (hx : x ∈ t) : t.foldl min a ≤ x := by
  induction t generalizing a with
  | nil => simp at hx
  | cons b t ih =>
    rcases List.mem_cons.mp hx with rfl | hx
    · exact le_trans (foldl_min_le_init t (min a x)) (min_le_right a x)
    · exact ih (min a b) hx

theorem foldl_min_mem (t : List ℚ) (a : ℚ) : t.foldl min a = a ∨ t.foldl min a ∈ t := by
  induction t generalizing a with
  | nil => left; rfl
  | cons b t ih =>
    rcases ih (min a b) with h | h
    · rcases min_cases a b with ⟨hm, _⟩ | ⟨hm, _⟩
      · left; rw [List.foldl_cons, h, hm]
      · right; rw [List.foldl_cons, h, hm]; exact List.mem_cons_self b t
    · right; exact List.mem_cons_of_mem b h

theorem listMin_mem (l : List ℚ) (h : l ≠ []) : listMin l ∈ l := by
  cases l with
  | nil => exact absurd rfl h
  | cons a t =>
    rcases foldl_min_mem t a with h' | h'
    · rw [listMin, h']; exact List.mem_cons_self a t
    · exact List.mem_cons_of_mem a h'

theorem listMin_le (l : List ℚ) (x : ℚ) (hx : x ∈ l) : listMin l ≤ x := by
  cases l with
  | nil => simp at hx
  | cons a t =>
    rcases List.mem_cons.mp hx with rfl | hx
    · exact foldl_min_le_init t x
    · exact foldl_min_le_mem t a x hx

theorem npArgmin_lt_length (l : List ℚ) (h : l ≠ []) : npArgmin l < l.length :=
  List.findIdx_lt_length_of_exists ⟨listMin l, listMin_mem l h, by simp⟩

theorem npArgmin_getD (l : List ℚ) (h : l ≠ []) :
    l.getD (npArgmin l) 0 = listMin l := by
  have hlt := npArgmin_lt_length l h
  rw [List.getD_eq_getElem _ _ hlt]
  have hp := @List.findIdx_getElem _ (fun v => decide (v = listMin l)) l hlt
  simpa [npArgmin] using hp

theorem npArgmin_le_getD (l : List ℚ) (h : l ≠ []) (j : ℕ) (hj : j < l.length) :
    l.getD (npArgmin l) 0 ≤ l.getD j 0 := by
  rw [npArgmin_getD l h, List.getD_eq_getElem _ _ hj]
  exact listMin_le l _ (List.getElem_mem hj)

theorem npArgmin_first_getD (l : List ℚ) (h : l ≠ []) (j : ℕ) (hj : j < l.length)
    (heq : l.getD j 0 = l.getD (npArgmin l) 0) : npArgmin l ≤ j := by
  by_contra hlt
  push_neg at hlt
  have hfalse := @List.not_of_lt_findIdx _ (fun v => decide (v = listMin l)) l j hlt
  rw [npArgmin_getD l h, List.getD_eq_getElem _ _ hj] at heq
  simp only [decide_eq_false_iff_not] at hfalse
  exact hfalse heq

theorem find_closest_index_map_some (vals : List ℚ) (p : ℚ) (h : vals ≠ []) :
    find_closest_index (vals.map some) p =
      .ok (npArgmin (vals.map (fun v => |v - p|))) := by
  have hany : (vals.map some).any (fun x => x.isNone) = false := by
    simp [List.any_map, Function.comp]
  have hne : (vals.map some).isEmpty = false := by
    simp [List.isEmpty_iff, h]
  simp only [find_closest_index, hany, hne, Bool.false_eq_true, if_false]
  rw [List.map_map]
  rfl

theorem diffs_ne_nil (vals : List ℚ) (p : ℚ) (h : vals ≠ []) :
    vals.map (fun v => |v - p|) ≠ [] := by
  simp [h]

theorem diffs_getD (vals : List ℚ) (p : ℚ) (j : ℕ) (hj : j < vals.length) :
    (vals.map (fun v => |v - p|)).getD j 0 = |vals.getD j 0 - p| := by
  rw [List.getD_eq_getElem _ _ (by simpa using hj), List.getD_eq_getElem _ _ hj]
  simp

/-- C3 (amended): `find_closest_index` errors exactly when the data contains a
nan or is empty (numpy `argmin` also raises `ValueError` on an empty array);
on non-empty nan-free data it returns an index of minimal absolute difference
to the datapoint. -/
theorem find_closest_index_spec (data : List (Option ℚ)) (vals : List ℚ) (p : ℚ)
    (hv : vals ≠ []) :
    ((∃ e, find_closest_index data p = .error e) ↔
      ((∃ x ∈ data, x = none) ∨ data = [])) ∧
    (∃ i, find_closest_index (vals.map some) p = .ok i ∧ i < vals.length ∧
      ∀ j, j < vals.length → |vals.getD i 0 - p| ≤ |vals.getD j 0 - p|) := by
  constructor
  · by_cases hany : data.any (fun x => x.isNone) = true
    · constructor
      · intro _
        left
        rcases List.any_eq_true.mp hany with ⟨x, hx, hxn⟩
        exact ⟨x, hx, Option.isNone_iff_eq_none.mp hxn⟩
      · intro _
        exact ⟨"The input array contains nan which will always return as the nearest to datapoint",
          by simp only [find_closest_index, hany, if_true]⟩
    · by_cases hemp : data.isEmpty = true
      · constructor
        · intro _
          right
          exact List.isEmpty_iff.mp hemp
        · intro _
          refine ⟨"attempt to get argmin of an empty sequence", ?_⟩
          simp [find_closest_index, hany, hemp]
      · simp only [find_closest_index, hany, hemp, Bool.false_eq_true, if_false]
        constructor
        · rintro ⟨e, he⟩
          exact absurd he (by simp)
        · rintro (⟨x, hx, rfl⟩ | rfl)
          · exact absurd (List.any_eq_true.mpr ⟨none, hx, rfl⟩) hany
          · simp at hemp
  · refine ⟨npArgmin (vals.map (fun v => |v - p|)), find_closest_index_map_some vals p hv, ?_, ?_⟩
    · have := npArgmin_lt_length _ (diffs_ne_nil vals p hv)
      simpa using this
    · intro j hj
      have hi : npArgmin (vals.map (fun v => |v - p|)) < vals.length := by
        have := npArgmin_lt_length _ (diffs_ne_nil vals p hv)
        simpa using this
      rw [← diffs_getD vals p _ hi, ← diffs_getD vals p j hj]
      exact npArgmin_le_getD _ (diffs_ne_nil vals p hv) j (by simpa using hj)

/-- C3 witness: nan-free singleton for the error characterization and the
spec example `[1, 5, 10]` with datapoint `4`. -/
theorem find_closest_index_spec_witness :
    ((∃ e, find_closest_index [some (1 : ℚ)] 4 = .error e) ↔
      ((∃ x ∈ [some (1 : ℚ)], x = none) ∨ [some (1 : ℚ)] = [])) ∧
    (∃ i, find_closest_index ([(1 : ℚ), 5, 10].map some) 4 = .ok i ∧
      i < [(1 : ℚ), 5, 10].length ∧
      ∀ j, j < [(1 : ℚ), 5, 10].length →
        |[(1 : ℚ), 5, 10].getD i 0 - 4| ≤ |[(1 : ℚ), 5, 10].getD j 0 - 4|) :=
  find_closest_index_spec [some (1 : ℚ)] [(1 : ℚ), 5, 10] 4 (by simp)

/-- C3 counterexample: on the empty array the code raises a `ValueError`
(from numpy `argmin`) although no element is nan, refuting the claimed
"raises iff nan present" equivalence. -/
theorem find_closest_index_error_without_nan :
    (∃ e, find_closest_index ([] : List (Option ℚ)) 0 = .error e) ∧
    ¬ ∃ x ∈ ([] : List (Option ℚ)), x = none :=
  ⟨⟨"attempt to get argmin of an empty sequence", rfl⟩, by simp⟩

/-- C10: on non-empty nan-free data, `find_closest_index` is deterministic under
ties: the returned index is the smallest index attaining the minimal absolute
difference. -/
theorem find_closest_index_first_occurrence (vals : List ℚ) (p : ℚ) (h : vals ≠ []) :
    ∃ i, find_closest_index (vals.map some) p = .ok i ∧
      ∀ j, j < vals.length → |vals.getD j 0 - p| = |vals.getD i 0 - p| → i ≤ j := by
  refine ⟨npArgmin (vals.map (fun v => |v - p|)), find_closest_index_map_some vals p h, ?_⟩
  intro j hj heq
  have hi : npArgmin (vals.map (fun v => |v - p|)) < vals.length := by
    have := npArgmin_lt_length _ (diffs_ne_nil vals p h)
    simpa using this
  apply npArgmin_first_getD (vals.map (fun v => |v - p|)) (diffs_ne_nil vals p h) j
    (by simpa using hj)
  rw [diffs_getD vals p j hj, diffs_getD vals p _ hi]
  exact heq

/-- C10 witness: `[5, 1, 3]` with datapoint `2` has tied differences at indices
`1` and `2`; the first is returned. -/
theorem find_closest_index_first_occurrence_witness :
    ∃ i, find_closest_index ([(5 : ℚ), 1, 3].map some) 2 = .ok i ∧
      ∀ j, j < [(5 : ℚ), 1, 3].length →
        |[(5 : ℚ), 1, 3].getD j 0 - 2| = |[(5 : ℚ), 1, 3].getD i 0 - 2| → i ≤ j :=
  find_closest_index_first_occurrence [(5 : ℚ), 1, 3] 2 (by simp)

theorem fcsi_go_some (vs : List ℚ) (p : ℚ) (i : ℕ) (b : ℚ) (idx : ℕ) :
    (fcsi_go vs p i (some b) idx = idx ∧ ∀ v ∈ vs, v < p → b ≤ |v - p|) ∨
    (∃ k, k < vs.length ∧ fcsi_go vs p i (some b) idx = i + k ∧
      vs.getD k 0 < p ∧ |vs.getD k 0 - p| < b ∧
      ∀ j, j < vs.length → vs.getD j 0 < p → |vs.getD k 0 - p| ≤ |vs.getD j 0 - p|) := by
  induction vs generalizing i b idx with
  | nil => left; exact ⟨rfl, by simp⟩
  | cons v vs ih =>
    by_cases hd : |v - p| < b
    · by_cases hv : v < p
      · rw [show fcsi_go (v :: vs) p i (some b) idx = fcsi_go vs p (i + 1) (some |v - p|) i by
          simp [fcsi_go, hd, hv]]
        rcases ih (i + 1) (|v - p|) i with ⟨hr, hmin⟩ | ⟨k, hk, hr, hck, hcb, hmin⟩
        · right
          refine ⟨0, by simp, by simpa using hr, by simpa using hv, by simpa using hd, ?_⟩
          intro j hj hjp
          match j with
          | 0 => simp
          | j + 1 =>
            simp only [List.getD_cons_succ] at hjp ⊢
            simp only [List.getD_cons_zero]
            have hjlen : j < vs.length := by simpa using hj
            have : vs.getD j 0 ∈ vs := by
              rw [List.getD_eq_getElem _ _ hjlen]
              exact List.getElem_mem hjlen
            exact hmin _ this hjp
        · right
          refine ⟨k + 1, by simpa using hk, by omega, by simpa using hck, lt_trans hcb hd, ?_⟩
          intro j hj hjp
          match j with
          | 0 =>
            simp only [List.getD_cons_zero] at hjp ⊢
            simp only [List.getD_cons_succ]
            exact le_of_lt (lt_of_lt_of_le hcb (le_refl _))
          | j + 1 =>
            simp only [List.getD_cons_succ] at hjp ⊢
            exact hmin j (by simpa using hj) hjp
      · rw [show fcsi_go (v :: vs) p i (some b) idx = fcsi_go vs p (i + 1) (some b) idx by
          simp [fcsi_go, hd, hv]]
        rcases ih (i + 1) b idx with ⟨hr, hmin⟩ | ⟨k, hk, hr, hck, hcb, hmin⟩
        · left
          refine ⟨hr, ?_⟩
          intro w hw hwp
          rcases List.mem_cons.mp hw with rfl | hw
          · exact absurd hwp hv
          · exact hmin w hw hwp
        · right
          refine ⟨k + 1, by simpa using hk, by omega, by simpa using hck, hcb, ?_⟩
          intro j hj hjp
          match j with
          | 0 =>
            simp only [List.getD_cons_zero] at hjp
            exact absurd hjp hv
          | j + 1 =>
            simp only [List.getD_cons_succ] at hjp ⊢
            exact hmin j (by simpa using hj) hjp
    · rw [show fcsi_go (v :: vs) p i (some b) idx = fcsi_go vs p (i + 1) (some b) idx by
        simp [fcsi_go, hd]]
      rcases ih (i + 1) b idx with ⟨hr, hmin⟩ | ⟨k, hk, hr, hck, hcb, hmin⟩
      · left
        refine ⟨hr, ?_⟩
        intro w hw hwp
        rcases List.mem_cons.mp hw with rfl | hw
        · exact le_of_not_lt hd
        · exact hmin w hw hwp
      · right
        refine ⟨k + 1, by simpa using hk, by omega, by simpa using hck, hcb, ?_⟩
        intro j hj hjp
        match j with
        | 0 =>
          simp only [List.getD_cons_zero] at hjp ⊢
          simp only [List.getD_cons_succ]
          exact le_of_lt (lt_of_lt_of_le hcb (le_of_not_lt hd))
        | j + 1 =>
          simp only [List.getD_cons_succ] at hjp ⊢
          exact hmin j (by simpa using hj) hjp

theorem fcsi_go_none (vs : List ℚ) (p : ℚ) (i : ℕ) (idx : ℕ) :
    ((∀ v ∈ vs, ¬ v < p) ∧ fcsi_go vs p i none idx = idx) ∨
    (∃ k, k < vs.length ∧ fcsi_go vs p i none idx = i + k ∧
      vs.getD k 0 < p ∧
      ∀ j, j < vs.length → vs.getD j 0 < p → |vs.getD k 0 - p| ≤ |vs.getD j 0 - p|) := by
  induction vs generalizing i idx with
  | nil => left; exact ⟨by simp, rfl⟩
  | cons v vs ih =>
    by_cases hv : v < p
    · rw [show fcsi_go (v :: vs) p i none idx = fcsi_go vs p (i + 1) (some |v - p|) i by
        simp [fcsi_go, hv]]
      rcases fcsi_go_some vs p (i + 1) (|v - p|) i with ⟨hr, hmin⟩ | ⟨k, hk, hr, hck, hcb, hmin⟩
      · right
        refine ⟨0, by simp, by simpa using hr, by simpa using hv, ?_⟩
        intro j hj hjp
        match j with
        | 0 => simp
        | j + 1 =>
          simp only [List.getD_cons_succ] at hjp ⊢
          simp only [List.getD_cons_zero]
          have hjlen : j < vs.length := by simpa using hj
          have : vs.getD j 0 ∈ vs := by
            rw [List.getD_eq_getElem _ _ hjlen]
            exact List.getElem_mem hjlen
          exact hmin _ this hjp
      · right
        refine ⟨k + 1, by simpa using hk, by omega, by simpa using hck, ?_⟩
        intro j hj hjp
        match j with
        | 0 =>
          simp only [List.getD_cons_zero] at hjp ⊢
          simp only [List.getD_cons_succ]
          exact le_of_lt hcb
        | j + 1 =>
          simp only [List.getD_cons_succ] at hjp ⊢
          exact hmin j (by simpa using hj) hjp
    · rw [show fcsi_go (v :: vs) p i none idx = fcsi_go vs p (i + 1) none idx by
        simp [fcsi_go, hv]]
      rcases ih (i + 1) idx with ⟨hall, hr⟩ | ⟨k, hk, hr, hck, hmin⟩
      · left
        refine ⟨?_, hr⟩
        intro w hw
        rcases List.mem_cons.mp hw with rfl | hw
        · exact hv
        · exact hall w hw
      · right
        refine ⟨k + 1, by simpa using hk, by omega, by simpa using hck, ?_⟩
        intro j hj hjp
        match j with
        | 0 =>
          simp only [List.getD_cons_zero] at hjp
          exact absurd hjp hv
        | j + 1 =>
          simp only [List.getD_cons_succ] at hjp ⊢
          exact hmin j (by simpa using hj) hjp

/-- C4: `find_closest_smaller_index` returns `0` when no element is strictly
below the datapoint, and otherwise returns an in-range index of an element
strictly below the datapoint with minimal absolute difference to it. -/
theorem find_closest_smaller_index_spec (data : List ℚ) (p : ℚ) :
    ((∀ v ∈ data, ¬ v < p) → find_closest_smaller_index data p = 0) ∧
    ((∃ v ∈ data, v < p) →
      find_closest_smaller_index data p < data.length ∧
      data.getD (find_closest_smaller_index data p) 0 < p ∧
      ∀ j, j < data.length → data.getD j 0 < p →
        |data.getD (find_closest_smaller_index data p) 0 - p| ≤ |data.getD j 0 - p|) := by
  constructor
  · intro hall
    rcases fcsi_go_none data p 0 0 with ⟨_, hr⟩ | ⟨k, hk, _, hck, _⟩
    · exact hr
    · exfalso
      have : data.getD k 0 ∈ data := by
        rw [List.getD_eq_getElem _ _ hk]
        exact List.getElem_mem hk
      exact hall _ this hck
  · intro hex
    rcases fcsi_go_none data p 0 0 with ⟨hall, _⟩ | ⟨k, hk, hr, hck, hmin⟩
    · exfalso
      rcases hex with ⟨v, hv, hvp⟩
      exact hall v hv hvp
    · have hres : find_closest_smaller_index data p = k := by
        simpa [find_closest_smaller_index] using hr
      rw [hres]
      exact ⟨hk, hck, hmin⟩

/-- C4 witness: `[10, 20]` with datapoint `5` returns the degenerate `0`;
`[1, 3, 7]` with datapoint `5` returns index `1` (value `3`). -/
theorem find_closest_smaller_index_spec_witness :
    find_closest_smaller_index [(10 : ℚ), 20] 5 = 0 ∧
    (find_closest_smaller_index [(1 : ℚ), 3, 7] 5 < [(1 : ℚ), 3, 7].length ∧
      [(1 : ℚ), 3, 7].getD (find_closest_smaller_index [(1 : ℚ), 3, 7] 5) 0 < 5 ∧
      ∀ j, j < [(1 : ℚ), 3, 7].length → [(1 : ℚ), 3, 7].getD j 0 < 5 →
        |[(1 : ℚ), 3, 7].getD (find_closest_smaller_index [(1 : ℚ), 3, 7] 5) 0 - 5| ≤
          |[(1 : ℚ), 3, 7].getD j 0 - 5|) :=
  ⟨(find_closest_smaller_index_spec [(10 : ℚ), 20] 5).1 (by decide),
   (find_closest_smaller_index_spec [(1 : ℚ), 3, 7] 5).2 ⟨1, by decide, by decide⟩⟩

theorem everySecond_length_getD (l : List ℕ) :
    (everySecond l).length = (l.length + 1) / 2 ∧
    ∀ i, i < (everySecond l).length → (everySecond l).getD i 0 = l.getD (2 * i) 0 := by
  induction l using everySecond.induct with
  | case1 => simp [everySecond]
  | case2 a => simp [everySecond]
  | case3 a b t ih =>
    refine ⟨?_, ?_⟩
    · simp only [everySecond, List.length_cons]
      omega
    · intro i hi
      match i with
      | 0 => simp [everySecond]
      | i + 1 =>
        simp only [everySecond, List.length_cons] at hi
        have h2 : 2 * (i + 1) = 2 * i + 1 + 1 := by omega
        simp only [everySecond, List.getD_cons_succ, h2]
        exact ih.2 i (by omega)

theorem everySecond_sublist (l : List ℕ) : List.Sublist (everySecond l) l := by
  induction l using everySecond.induct with
  | case1 => simp [everySecond]
  | case2 a => simp [everySecond]
  | case3 a b t ih =>
    simpa [everySecond] using List.Sublist.cons₂ a (List.Sublist.cons b ih)

theorem signChanges_pairwise (sync_ch : List ℚ) :
    List.Pairwise (· < ·) (signChanges sync_ch) :=
  (List.pairwise_lt_range _).filter _

/-- C5 (amended): with no expected count, `get_stim_timestamps` returns exactly
the even-positioned sign changes of the above-zero mask, in strictly increasing
order; for a positive expected count `n` the result is truncated to the first
`n`, and if fewer exist the full result is returned unchanged. -/
theorem get_stim_timestamps_spec (sync_ch : List ℚ) (n : ℕ) (hn : 0 < n) :
    (get_stim_timestamps sync_ch none).length = ((signChanges sync_ch).length + 1) / 2 ∧
    (∀ i, i < (get_stim_timestamps sync_ch none).length →
      (get_stim_timestamps sync_ch none).getD i 0 = (signChanges sync_ch).getD (2 * i) 0) ∧
    List.Pairwise (· < ·) (get_stim_timestamps sync_ch none) ∧
    get_stim_timestamps sync_ch (some n) = (get_stim_timestamps sync_ch none).take n ∧
    ((get_stim_timestamps sync_ch none).length ≤ n →
      get_stim_timestamps sync_ch (some n) = get_stim_timestamps sync_ch none) := by
  refine ⟨(everySecond_length_getD (signChanges sync_ch)).1,
    (everySecond_length_getD (signChanges sync_ch)).2,
    (signChanges_pairwise sync_ch).sublist (everySecond_sublist _), ?_, ?_⟩
  · simp [get_stim_timestamps, Nat.pos_iff_ne_zero.mp hn]
  · intro hle
    simp only [get_stim_timestamps] at hle ⊢
    rw [if_pos (Nat.pos_iff_ne_zero.mp hn)]
    exact List.take_of_length_le hle

/-- C5 witness: `sync = [0, 2, 0, 3, 0]` has sign changes at 1, 2, 3, 4 and
rising edges at 1 and 3; expected count 1 keeps only the first. -/
theorem get_stim_timestamps_spec_witness :
    (get_stim_timestamps [(0 : ℚ), 2, 0, 3, 0] none).length =
      ((signChanges [(0 : ℚ), 2, 0, 3, 0]).length + 1) / 2 ∧
    (∀ i, i < (get_stim_timestamps [(0 : ℚ), 2, 0, 3, 0] none).length →
      (get_stim_timestamps [(0 : ℚ), 2, 0, 3, 0] none).getD i 0 =
        (signChanges [(0 : ℚ), 2, 0, 3, 0]).getD (2 * i) 0) ∧
    List.Pairwise (· < ·) (get_stim_timestamps [(0 : ℚ), 2, 0, 3, 0] none) ∧
    get_stim_timestamps [(0 : ℚ), 2, 0, 3, 0] (some 1) =
      (get_stim_timestamps [(0 : ℚ), 2, 0, 3, 0] none).take 1 ∧
    ((get_stim_timestamps [(0 : ℚ), 2, 0, 3, 0] none).length ≤ 1 →
      get_stim_timestamps [(0 : ℚ), 2, 0, 3, 0] (some 1) =
        get_stim_timestamps [(0 : ℚ), 2, 0, 3, 0] none) :=
  get_stim_timestamps_spec [(0 : ℚ), 2, 0, 3, 0] 1 (by norm_num)

/-- C5 counterexample: with `expected_pulses = 0` (falsy in Python) the code
does not truncate, so "truncated to the first N indices" fails at `N = 0`. -/
theorem get_stim_timestamps_zero_expected :
    get_stim_timestamps [(1 : ℚ)] (some 0) ≠
      (get_stim_timestamps [(1 : ℚ)] none).take 0 := by
  decide

theorem pyIdx_of_bounds (n : ℕ) (i : ℤ) (h0 : 0 ≤ i) (hn : i ≤ (n : ℤ)) :
    pyIdx n i = i.toNat := by
  simp only [pyIdx, if_neg (not_lt.mpr h0)]
  congr 1
  omega

theorem pySlice_length (l : List ℚ) (a b : ℤ) (h0 : 0 ≤ a) (hab : a ≤ b)
    (hb : b ≤ (l.length : ℤ)) :
    (pySlice l a b).length = b.toNat - a.toNat := by
  simp only [pySlice, pyIdx_of_bounds _ _ h0 (le_trans hab hb),
    pyIdx_of_bounds _ _ (le_trans h0 hab) hb, List.length_drop, List.length_take]
  omega

theorem zip_tail_chain {q : List ℤ} (hq : List.Chain' (· < ·) q) :
    ∀ ab ∈ q.zip q.tail, ab.1 < ab.2 ∧ ab.1 ∈ q ∧ ab.2 ∈ q := by
  induction q with
  | nil => simp
  | cons a t ih =>
    cases t with
    | nil => simp
    | cons b t' =>
      intro ab hab
      simp only [List.tail_cons, List.zip_cons_cons] at hab
      rcases List.mem_cons.mp hab with rfl | hab
      · exact ⟨(List.chain'_cons.mp hq).1, List.mem_cons_self _ _,
          List.mem_cons_of_mem _ (List.mem_cons_self _ _)⟩
      · have := ih (List.chain'_cons.mp hq).2 ab hab
        exact ⟨this.1, List.mem_cons_of_mem _ this.2.1, List.mem_cons_of_mem _ this.2.2⟩

theorem npSplit_tail (raw : List ℚ) (idxs : List ℤ) :
    (npSplit raw idxs).tail =
      (((idxs ++ [(raw.length : ℤ)]).zip (idxs ++ [(raw.length : ℤ)]).tail)).map
        (fun ab => pySlice raw ab.1 ab.2) := by
  simp only [npSplit]
  cases h : idxs ++ [(raw.length : ℤ)] with
  | nil => exact absurd h (by simp)
  | cons b q' => simp [h]

theorem trim_equal_len_length (raw : List (List ℚ)) :
    (trim_equal_len raw).length = raw.length := by
  simp [trim_equal_len]

/-- C1 (amended): for a non-empty strictly increasing list of onsets, each
below the signal length, `parse_raw` with `samples_before_stim = 0`,
`skip_one = False`, `min_len_chunk = 1` succeeds and returns a matrix with
exactly `len(onsets)` rows (`np.split` yields `len(onsets) + 1` chunks and
only the pre-onset chunk is dropped). -/
theorem parse_raw_row_count (raw : List ℚ) (onsets : List ℕ)
    (hne : onsets ≠ []) (hsorted : List.Pairwise (· < ·) onsets)
    (hlt : ∀ i ∈ onsets, i < raw.length) :
    ∃ m, parse_raw raw (onsets.map (fun i : ℕ => (i : ℤ))) 0 false 1 = .ok m ∧
      m.length = onsets.length := by
  obtain ⟨o0, rest, rfl⟩ : ∃ o0 rest, onsets = o0 :: rest := by
    cases onsets with
    | nil => exact absurd rfl hne
    | cons a t => exact ⟨a, t, rfl⟩
  have hq : ((o0 : ℤ) :: rest.map (fun i : ℕ => (i : ℤ))) ++ [(raw.length : ℤ)] =
      ((o0 :: rest).map (fun i : ℕ => (i : ℤ))) ++ [(raw.length : ℤ)] := by simp
  set q : List ℤ := ((o0 :: rest).map (fun i : ℕ => (i : ℤ))) ++ [(raw.length : ℤ)] with hqdef
  have hqpair : List.Pairwise (· < ·) q := by
    rw [hqdef]
    rw [List.pairwise_append]
    refine ⟨List.Pairwise.map _ (fun a b hab => by exact_mod_cast hab) hsorted, by simp, ?_⟩
    intro a ha b hb
    simp only [List.mem_singleton] at hb
    subst hb
    rcases List.mem_map.mp ha with ⟨i, hi, rfl⟩
    exact_mod_cast hlt i hi
  have hqchain : List.Chain' (· < ·) q := hqpair.chain'
  have hqmem : ∀ x ∈ q, 0 ≤ x ∧ x ≤ (raw.length : ℤ) := by
    intro x hx
    rw [hqdef] at hx
    rcases List.mem_append.mp hx with hx | hx
    · rcases List.mem_map.mp hx with ⟨i, hi, rfl⟩
      exact ⟨Int.ofNat_nonneg i, le_of_lt (by exact_mod_cast hlt i hi)⟩
    · simp only [List.mem_singleton] at hx
      subst hx
      exact ⟨Int.ofNat_nonneg _, le_refl _⟩
  have hchunks : ∀ c ∈ (q.zip q.tail).map (fun ab => pySlice raw ab.1 ab.2),
      1 ≤ c.length := by
    intro c hc
    rcases List.mem_map.mp hc with ⟨ab, hab, rfl⟩
    obtain ⟨h12, h1q, h2q⟩ := zip_tail_chain hqchain ab hab
    have h01 := (hqmem _ h1q).1
    have h2n := (hqmem _ h2q).2
    rw [pySlice_length raw ab.1 ab.2 h01 (le_of_lt h12) h2n]
    omega
  have hcount : ((q.zip q.tail).map (fun ab => pySlice raw ab.1 ab.2)).length =
      (o0 :: rest).length := by
    simp only [List.length_map, List.length_zip, List.length_tail, hqdef,
      List.length_append, List.length_map, List.length_cons, List.length_singleton]
    simp
  have hfilter :
      (((q.zip q.tail).map (fun ab => pySlice raw ab.1 ab.2)).filter
        (fun chunk => decide (1 ≤ chunk.length))) =
      ((q.zip q.tail).map (fun ab => pySlice raw ab.1 ab.2)) :=
    List.filter_eq_self.mpr (fun c hc => by simpa using hchunks c hc)
  refine ⟨trim_equal_len ((q.zip q.tail).map (fun ab => pySlice raw ab.1 ab.2)), ?_, ?_⟩
  · have hnonempty : ((q.zip q.tail).map (fun ab => pySlice raw ab.1 ab.2)) ≠ [] := by
      intro h0
      have hlen0 := congrArg List.length h0
      rw [hcount] at hlen0
      simp at hlen0
    simp only [parse_raw, List.map_cons, List.map_map, sub_zero, Function.comp_def,
      Bool.false_eq_true, if_false]
    rw [if_neg (not_lt.mpr (Int.ofNat_nonneg o0))]
    rw [show ((o0 : ℤ) :: rest.map (fun i : ℕ => (i : ℤ))) = (o0 :: rest).map (fun i : ℕ => (i : ℤ))
      from rfl]
    rw [npSplit_tail, ← hqdef, hfilter]
    rw [if_neg (by simp [List.isEmpty_iff, hnonempty])]
  · rw [trim_equal_len_length, hcount]

/-- C1 witness: signal `[0, 1, 2, 3]` with onsets `[1, 3]` yields a 2-row
matrix. -/
theorem parse_raw_row_count_witness :
    ∃ m, parse_raw [(0 : ℚ), 1, 2, 3] ([1, 3].map (fun i : ℕ => (i : ℤ))) 0 false 1 = .ok m ∧
      m.length = [1, 3].length :=
  parse_raw_row_count [(0 : ℚ), 1, 2, 3] [1, 3] (by simp) (by simp) (by decide)

/-- C1 counterexample: signal `[0, 1, 2, 3]` with onsets `[1, 3]` gives the
2-row matrix `[[1], [3]]`, not `len(onsets) - 1 = 1` rows: `np.split` produces
`len(onsets) + 1` chunks, of which only the pre-onset chunk is dropped. -/
theorem parse_raw_row_count_counterexample :
    parse_raw [(0 : ℚ), 1, 2, 3] [(1 : ℤ), 3] 0 false 1 = .ok [[(1 : ℚ)], [(3 : ℚ)]] ∧
    [[(1 : ℚ)], [(3 : ℚ)]].length ≠ [(1 : ℤ), 3].length - 1 := by
  constructor
  · rfl
  · decide

/-- C6: with exactly one tested amplitude, `get_average_amplitudes` returns the
single column-wise mean of all rows whatever `pulses_number` is; with more than
one amplitude and no `pulses_number`, it infers
`p = floor(total_rows / n_amplitudes)` and returns the column-wise mean of each
contiguous row block `[i*p, (i+1)*p)` in amplitude order. -/
theorem get_average_amplitudes_spec (parsed_raw : List (List ℚ))
    (tested_amplitudes : List ℚ) :
    (tested_amplitudes.length = 1 →
      ∀ pn, get_average_amplitudes parsed_raw tested_amplitudes pn = [colMean parsed_raw]) ∧
    (1 < tested_amplitudes.length →
      get_average_amplitudes parsed_raw tested_amplitudes none =
        (List.range tested_amplitudes.length).map (fun i =>
          colMean ((parsed_raw.drop (i * (parsed_raw.length / tested_amplitudes.length))).take
            (parsed_raw.length / tested_amplitudes.length)))) := by
  constructor
  · intro h1 pn
    simp only [get_average_amplitudes, if_pos h1, average_block, List.take_length,
      List.drop_zero]
  · intro hgt
    have hne : tested_amplitudes.length ≠ 1 := by omega
    simp only [get_average_amplitudes, if_neg hne]
    apply List.map_congr_left
    intro i _
    simp only [average_block]
    congr 1
    rw [List.take_drop]
    congr 1
    ring_nf

/-- C6 witness: one amplitude averages the whole 2-row matrix even with a bogus
`pulses_number = 5`; two amplitudes over four rows split into two 2-row blocks. -/
theorem get_average_amplitudes_spec_witness :
    get_average_amplitudes [[(1 : ℚ), 2], [3, 4]] [(7 : ℚ)] (some 5) =
      [colMean [[(1 : ℚ), 2], [3, 4]]] ∧
    get_average_amplitudes [[(1 : ℚ), 2], [3, 4], [5, 6], [7, 8]] [(7 : ℚ), 9] none =
      (List.range [(7 : ℚ), 9].length).map (fun i =>
        colMean (([[(1 : ℚ), 2], [3, 4], [5, 6], [7, 8]].drop
          (i * ([[(1 : ℚ), 2], [3, 4], [5, 6], [7, 8]].length / [(7 : ℚ), 9].length))).take
          ([[(1 : ℚ), 2], [3, 4], [5, 6], [7, 8]].length / [(7 : ℚ), 9].length))) :=
  ⟨(get_average_amplitudes_spec [[(1 : ℚ), 2], [3, 4]] [(7 : ℚ)]).1 rfl (some 5),
   (get_average_amplitudes_spec [[(1 : ℚ), 2], [3, 4], [5, 6], [7, 8]] [(7 : ℚ), 9]).2
     (by norm_num)⟩

theorem roundHalfEven_dist (x : ℚ) : |((roundHalfEven x : ℤ) : ℚ) - x| ≤ 1 / 2 := by
  have hf : (⌊x⌋ : ℚ) ≤ x := Int.floor_le x
  have hf1 : x < ⌊x⌋ + 1 := Int.lt_floor_add_one x
  simp only [roundHalfEven]
  by_cases h1 : x - ⌊x⌋ < 1 / 2
  · rw [if_pos h1, abs_le]
    constructor <;> linarith
  · by_cases h2 : 1 / 2 < x - ⌊x⌋
    · rw [if_neg h1, if_pos h2]
      push_cast
      rw [abs_le]
      constructor <;> linarith
    · rw [if_neg h1, if_neg h2]
      have hr : x - ⌊x⌋ = 1 / 2 := le_antisymm (not_lt.mp h2) (not_lt.mp h1)
      by_cases hpar : ⌊x⌋ % 2 = 0
      · rw [if_pos hpar, abs_le]
        constructor <;> linarith
      · rw [if_neg hpar]
        push_cast
        rw [abs_le]
        constructor <;> linarith

theorem rounded9_dist (s : ℚ) :
    |((roundHalfEven (s * 1000000000) : ℤ) : ℚ) / 1000000000 - s| ≤ 1 / 2000000000 := by
  have h := roundHalfEven_dist (s * 1000000000)
  have hrw : ((roundHalfEven (s * 1000000000) : ℤ) : ℚ) / 1000000000 - s =
      (((roundHalfEven (s * 1000000000) : ℤ) : ℚ) - s * 1000000000) / 1000000000 := by
    ring
  rw [hrw, abs_div, abs_of_pos (by norm_num : (0 : ℚ) < 1000000000)]
  rw [div_le_iff₀ (by norm_num : (0 : ℚ) < 1000000000)]
  calc |((roundHalfEven (s * 1000000000) : ℤ) : ℚ) - s * 1000000000| ≤ 1 / 2 := h
    _ = 1 / 2000000000 * 1000000000 := by norm_num

/-- C7 (amended): for `1 ≤ t·fs < 2^64`, `time_to_sample` with `is_t2 = True`
returns `floor(t·fs)`, except that when `t·fs` rounded to nine decimal places
is exactly an integer it returns that integer minus one; and every block of
`get_timestamps_stim_blocks` ends at its onset plus this t2-rounded duration. -/
theorem time_to_sample_t2_spec (t fs : ℚ) (h1 : 1 ≤ t * fs)
    (h2 : t * fs < 18446744073709551616) :
    (∀ k : ℤ, ((roundHalfEven (t * fs * 1000000000) : ℤ) : ℚ) / 1000000000 = (k : ℚ) →
      time_to_sample t fs false true = k - 1) ∧
    ((∀ k : ℤ, ((roundHalfEven (t * fs * 1000000000) : ℤ) : ℚ) / 1000000000 ≠ (k : ℚ)) →
      time_to_sample t fs false true = ⌊t * fs⌋) ∧
    (∀ sync_data n_amp_tested pulses,
      ∀ b ∈ get_timestamps_stim_blocks sync_data fs n_amp_tested pulses t,
        b.2 = b.1 + time_to_sample t fs false true) := by
  have hfl : (1 : ℤ) ≤ ⌊t * fs⌋ := Int.le_floor.mpr (by exact_mod_cast h1)
  have hfu : ⌊t * fs⌋ < 18446744073709551616 := Int.floor_lt.mpr (by exact_mod_cast h2)
  refine ⟨?_, ?_, ?_⟩
  · intro k hk
    have hdist := rounded9_dist (t * fs)
    rw [hk, abs_le] at hdist
    by_cases hcase : (k : ℚ) ≤ t * fs
    · have hfloor : ⌊t * fs⌋ = k := by
        rw [Int.floor_eq_iff]
        constructor
        · exact hcase
        · linarith [hdist.2]
      have hk1 : (1 : ℤ) ≤ k := hfloor ▸ hfl
      have hk2 : k < 18446744073709551616 := hfloor ▸ hfu
      simp only [time_to_sample, time_to_sample_pre, if_true]
      rw [hfloor, if_pos hk]
      exact Int.emod_eq_of_lt (by omega) (by omega)
    · push_neg at hcase
      have hfloor : ⌊t * fs⌋ = k - 1 := by
        rw [Int.floor_eq_iff]
        constructor
        · push_cast
          linarith [hdist.1]
        · push_cast
          linarith
      have hcond : ((roundHalfEven (t * fs * 1000000000) : ℤ) : ℚ) / 1000000000 ≠
          ((⌊t * fs⌋ : ℤ) : ℚ) := by
        rw [hk, hfloor]
        intro hcontra
        have : k = k - 1 := by exact_mod_cast hcontra
        omega
      simp only [time_to_sample, time_to_sample_pre, if_true]
      rw [if_neg hcond, hfloor]
      exact Int.emod_eq_of_lt (by omega) (by omega)
  · intro hall
    simp only [time_to_sample, time_to_sample_pre, if_true]
    rw [if_neg (hall ⌊t * fs⌋)]
    exact Int.emod_eq_of_lt (by omega) (by omega)
  · intro sync_data n_amp_tested pulses b hb
    simp only [get_timestamps_stim_blocks, List.mem_map] at hb
    rcases hb with ⟨o, _, rfl⟩
    rfl

/-- C7 witness: `t = 3/2`, `fs = 2` gives `t·fs = 3`, exactly an integer after
nine-decimal rounding, so the returned length is `3 - 1 = 2`; block ends equal
onset plus that duration. -/
theorem time_to_sample_t2_spec_witness :
    time_to_sample (3 / 2 : ℚ) 2 false true = 3 - 1 ∧
    (∀ b ∈ get_timestamps_stim_blocks [(1 : ℚ)] 2 1 1 (3 / 2),
      b.2 = b.1 + time_to_sample (3 / 2 : ℚ) 2 false true) :=
  ⟨(time_to_sample_t2_spec (3 / 2) 2 (by norm_num) (by norm_num)).1 3 (by
      norm_num [roundHalfEven]),
   (time_to_sample_t2_spec (3 / 2) 2 (by norm_num) (by norm_num)).2.2 [(1 : ℚ)] 1 1⟩

/-- C7 counterexample: at `t = 0`, `fs = 1` the product is the exact integer
`0`, so the claim prescribes the return value `-1`; the code's `np.uint64`
conversion instead produces `2^64 - 1`. -/
theorem time_to_sample_t2_zero :
    time_to_sample 0 1 false true = 18446744073709551615 ∧
    (18446744073709551615 : ℤ) ≠ ⌊(0 : ℚ) * 1⌋ - 1 := by
  have hfl : ⌊(0 : ℚ) * 1⌋ = 0 := by norm_num
  constructor
  · have hpre : time_to_sample_pre 0 1 false true = -1 := by
      simp only [time_to_sample_pre, if_true]
      norm_num [roundHalfEven]
    rw [time_to_sample, hpre]
    decide
  · rw [hfl]
    decide

theorem pdUniqueAux_mem (l : List String) (x : String) :
    ∀ acc, x ∈ pdUniqueAux l acc ↔ x ∈ acc ∨ x ∈ l := by
  induction l with
  | nil => intro acc; simp [pdUniqueAux]
  | cons a t ih =>
    intro acc
    by_cases h : a ∈ acc
    · rw [pdUniqueAux, if_pos h, ih]
      constructor
      · rintro (hx | hx)
        · exact Or.inl hx
        · exact Or.inr (List.mem_cons_of_mem a hx)
      · rintro (hx | hx)
        · exact Or.inl hx
        · rcases List.mem_cons.mp hx with rfl | hx
          · exact Or.inl h
          · exact Or.inr hx
    · rw [pdUniqueAux, if_neg h, ih]
      simp only [List.mem_cons]
      tauto

theorem pdUnique_mem (l : List String) (x : String) : x ∈ pdUnique l ↔ x ∈ l := by
  simp [pdUnique, pdUniqueAux_mem]

/-- C8: `compute_gait_cycles_bounds` raises a `ValueError` carrying the
available marker names exactly when the left or right reference marker is
absent from the table's markers, and proceeds to event detection for both
sides when both are present. -/
theorem compute_gait_cycles_bounds_spec (bodyparts : List String)
    (left_marker right_marker : String) :
    (left_marker ∈ bodyparts → right_marker ∈ bodyparts →
      compute_gait_cycles_bounds bodyparts left_marker right_marker =
        .ok (left_marker, right_marker)) ∧
    (left_marker ∉ bodyparts →
      compute_gait_cycles_bounds bodyparts left_marker right_marker =
        .error (leftMarkerError left_marker (pdUnique bodyparts))) ∧
    (left_marker ∈ bodyparts → right_marker ∉ bodyparts →
      compute_gait_cycles_bounds bodyparts left_marker right_marker =
        .error (rightMarkerError right_marker (pdUnique bodyparts))) ∧
    (∀ m, m ∈ pdUnique bodyparts ↔ m ∈ bodyparts) := by
  refine ⟨?_, ?_, ?_, fun m => pdUnique_mem bodyparts m⟩
  · intro hl hr
    rw [compute_gait_cycles_bounds,
      if_neg (by simp [pdUnique_mem, hl]), if_neg (by simp [pdUnique_mem, hr])]
  · intro hl
    rw [compute_gait_cycles_bounds, if_pos (by simp [pdUnique_mem, hl])]
  · intro hl hr
    rw [compute_gait_cycles_bounds,
      if_neg (by simp [pdUnique_mem, hl]), if_pos (by simp [pdUnique_mem, hr])]

/-- C8 witness: with markers `["lmtp", "rmtp"]`, requesting `lmtp`/`rmtp`
succeeds, while requesting the absent `nose` raises the left-marker error
listing the available names. -/
theorem compute_gait_cycles_bounds_spec_witness :
    compute_gait_cycles_bounds ["lmtp", "rmtp"] "lmtp" "rmtp" = .ok ("lmtp", "rmtp") ∧
    compute_gait_cycles_bounds ["lmtp", "rmtp"] "nose" "rmtp" =
      .error (leftMarkerError "nose" (pdUnique ["lmtp", "rmtp"])) :=
  ⟨(compute_gait_cycles_bounds_spec ["lmtp", "rmtp"] "lmtp" "rmtp").1
      (by decide) (by decide),
   (compute_gait_cycles_bounds_spec ["lmtp", "rmtp"] "nose" "rmtp").2.1 (by decide)⟩

end Neurokin
